import Mathlib

/-!
Shallow embedding of the kana-to-romaji transliteration engine
(`kana_romaji.py`): katakana normalization, digraph/monograph lookup
tables, the lookahead chunk resolver, the main scanning loop with its
special cases (sokuon っ, moraic nasal ん, chōon ー), and the optional
macron post-pass.  Strings are modelled as `String` / `List Char`;
Python dictionaries become association lists looked up in order.
-/

/-- Convert a single katakana char to hiragana; leave others as-is.
Embeds `_kata_to_hira`: `chr(ord(ch) - 0x60)` for `0x30A1 <= ord(ch) <= 0x30F6`. -/
def kata_to_hira (ch : Char) : Char :=
  let code := ch.toNat
  if 0x30A1 ≤ code ∧ code ≤ 0x30F6 then Char.ofNat (code - 0x60) else ch

/-- The normalization step of `kana_to_romaji`:
`"".join(_kata_to_hira(ch) for ch in text)`. -/
def normalize_to_hira (text : String) : String :=
  String.mk (text.toList.map kata_to_hira)

/-- Embeds `_HIRA_DIGRAPHS` (keys are two-kana strings). -/
def HIRA_DIGRAPHS : List (String × String) := [
  ("きゃ", "kya"), ("きゅ", "kyu"), ("きょ", "kyo"),
  ("ぎゃ", "gya"), ("ぎゅ", "gyu"), ("ぎょ", "gyo"),
  ("しゃ", "sha"), ("しゅ", "shu"), ("しょ", "sho"),
  ("じゃ", "ja"), ("じゅ", "ju"), ("じょ", "jo"),
  ("ちゃ", "cha"), ("ちゅ", "chu"), ("ちょ", "cho"),
  ("にゃ", "nya"), ("にゅ", "nyu"), ("にょ", "nyo"),
  ("ひゃ", "hya"), ("ひゅ", "hyu"), ("ひょ", "hyo"),
  ("びゃ", "bya"), ("びゅ", "byu"), ("びょ", "byo"),
  ("ぴゃ", "pya"), ("ぴゅ", "pyu"), ("ぴょ", "pyo"),
  ("みゃ", "mya"), ("みゅ", "myu"), ("みょ", "myo"),
  ("りゃ", "rya"), ("りゅ", "ryu"), ("りょ", "ryo")]

/-- Embeds `_HIRA_MONO` (Python keys are one-character strings, modelled
as `Char`). -/
def HIRA_MONO : List (Char × String) := [
  ('あ', "a"), ('い', "i"), ('う', "u"), ('え', "e"), ('お', "o"),
  ('か', "ka"), ('き', "ki"), ('く', "ku"), ('け', "ke"), ('こ', "ko"),
  ('さ', "sa"), ('し', "shi"), ('す', "su"), ('せ', "se"), ('そ', "so"),
  ('た', "ta"), ('ち', "chi"), ('つ', "tsu"), ('て', "te"), ('と', "to"),
  ('な', "na"), ('に', "ni"), ('ぬ', "nu"), ('ね', "ne"), ('の', "no"),
  ('は', "ha"), ('ひ', "hi"), ('ふ', "fu"), ('へ', "he"), ('ほ', "ho"),
  ('ま', "ma"), ('み', "mi"), ('む', "mu"), ('め', "me"), ('も', "mo"),
  ('や', "ya"), ('ゆ', "yu"), ('よ', "yo"),
  ('ら', "ra"), ('り', "ri"), ('る', "ru"), ('れ', "re"), ('ろ', "ro"),
  ('わ', "wa"), ('を', "o"),
  ('ん', "n"),
  ('が', "ga"), ('ぎ', "gi"), ('ぐ', "gu"), ('げ', "ge"), ('ご', "go"),
  ('ざ', "za"), ('じ', "ji"), ('ず', "zu"), ('ぜ', "ze"), ('ぞ', "zo"),
  ('だ', "da"), ('ぢ', "ji"), ('づ', "zu"), ('で', "de"), ('ど', "do"),
  ('ば', "ba"), ('び', "bi"), ('ぶ', "bu"), ('べ', "be"), ('ぼ', "bo"),
  ('ぱ', "pa"), ('ぴ', "pi"), ('ぷ', "pu"), ('ぺ', "pe"), ('ぽ', "po"),
  ('ぁ', "a"), ('ぃ', "i"), ('ぅ', "u"), ('ぇ', "e"), ('ぉ', "o"),
  ('ゃ', "ya"), ('ゅ', "yu"), ('ょ', "yo"),
  ('っ', ""),
  ('ー', "")]

/-- Ordered association-list lookup with `String` keys (Python
`pair in dict` / `dict[pair]` on `_HIRA_DIGRAPHS`). -/
def alookup (k : String) : List (String × String) → Option String
  | [] => none
  | p :: rest => if k = p.1 then some p.2 else alookup k rest

/-- Ordered association-list lookup with `Char` keys (Python
`dict.get(ch)` on `_HIRA_MONO`). -/
def clookup (k : Char) : List (Char × String) → Option String
  | [] => none
  | p :: rest => if k = p.1 then some p.2 else clookup k rest

/-- Embeds `_next_romaji_chunk`: peek the romaji for the kana at `pos`,
a digraph starting there first, otherwise the monograph value,
defaulting to `""` for unmapped characters. -/
def next_romaji_chunk (hira : List Char) (pos : Nat) : String :=
  if pos ≥ hira.length then ""
  else
    (if pos + 1 < hira.length then
       alookup (String.mk [hira.getD pos ' ', hira.getD (pos + 1) ' ']) HIRA_DIGRAPHS
     else none).getD ((clookup (hira.getD pos ' ') HIRA_MONO).getD "")

/-- Leftmost, non-overlapping global replacement of `pat` by `rep`
(Python `str.replace` for a non-empty pattern).  `fuel` bounds the
recursion; `s.length` is always enough since each step consumes at
least one character. -/
def replaceAux (pat rep : List Char) : Nat → List Char → List Char
  | 0, s => s
  | _ + 1, [] => []
  | fuel + 1, c :: rest =>
    if pat ≠ [] ∧ pat.isPrefixOf (c :: rest) then
      rep ++ replaceAux pat rep fuel ((c :: rest).drop pat.length)
    else
      c :: replaceAux pat rep fuel rest

/-- `s.replace(pat, rep)` on the model above. -/
def str_replace (s pat rep : String) : String :=
  String.mk (replaceAux pat.toList rep.toList s.toList.length s.toList)

/-- The ordered replacement table of `_apply_macrons`. -/
def MACRON_REPL : List (String × String) :=
  [("aa", "ā"), ("ii", "ī"), ("uu", "ū"), ("ee", "ē"), ("oo", "ō"), ("ou", "ō")]

/-- Embeds `_apply_macrons`: the replacements are applied sequentially,
each one consuming the output of the previous one. -/
def apply_macrons (basic : String) : String :=
  MACRON_REPL.foldl (fun s p => str_replace s p.1 p.2) basic

/-- The sokuon (っ) branch of the loop body: double the first letter of
the next chunk (`if c.isalpha(): result.append(c)`). -/
def sokuon_step (hira : List Char) (i : Nat) (acc : List String) :
    List String × Nat :=
  (if i + 1 < hira.length then
     match (next_romaji_chunk hira (i + 1)).toList with
     | [] => acc
     | c :: _ => if c.isAlpha then String.mk [c] :: acc else acc
   else acc, i + 1)

/-- The moraic-nasal (ん) branch of the loop body. -/
def nasal_step (use_m : Bool) (hira : List Char) (i : Nat) (acc : List String) :
    List String × Nat :=
  (if i + 1 ≥ hira.length then "n" :: acc
   else
     match (next_romaji_chunk hira (i + 1)).toList with
     | [] => "n" :: acc
     | c :: _ =>
       if "aeiouy".toList.contains c.toLower then "n'" :: acc
       else if "bmp".toList.contains c.toLower then
         (if use_m then "m" else "n") :: acc
       else "n" :: acc, i + 1)

/-- The chōon (ー) branch of the loop body: Python scans the last
appended chunk (`result[-1]`, the head of the reversed buffer)
backward and re-appends the first vowel found. -/
def choon_step (acc : List String) (i : Nat) : List String × Nat :=
  (match acc with
   | [] => acc
   | last :: _ =>
     match last.toList.reverse.find? (fun c => "aeiou".toList.contains c) with
     | some v => String.mk [v] :: acc
     | none => acc, i + 1)

/-- The default branch of the loop body: the monograph value, or the
character itself for unmapped input (`rom = ch` pass-through). -/
def mono_step (hira : List Char) (i : Nat) (acc : List String) :
    List String × Nat :=
  (match clookup (hira.getD i ' ') HIRA_MONO with
   | some rom => rom :: acc
   | none => String.mk [hira.getD i ' '] :: acc, i + 1)

/-- One iteration of the `while i < length` loop of `kana_to_romaji`,
dispatching on the current character exactly in the source's order:
っ, ん, digraph, ー, monograph/pass-through.  `acc` is the output
buffer in reverse order; the result pairs the new buffer with the new
cursor. -/
def step (use_m : Bool) (hira : List Char) (i : Nat) (acc : List String) :
    List String × Nat :=
  if hira.getD i ' ' = 'っ' then sokuon_step hira i acc
  else if hira.getD i ' ' = 'ん' then nasal_step use_m hira i acc
  else
    match (if i + 1 < hira.length then
             alookup (String.mk [hira.getD i ' ', hira.getD (i + 1) ' ']) HIRA_DIGRAPHS
           else none) with
    | some v => (v :: acc, i + 2)
    | none =>
      if hira.getD i ' ' = 'ー' then choon_step acc i
      else mono_step hira i acc

/-- The scanning loop.  `fuel` bounds the number of iterations;
`hira.length` is always enough because every `step` advances the
cursor by at least 1.  Returns the buffer together with the final
cursor. -/
def scan_loop (use_m : Bool) (hira : List Char) :
    Nat → Nat → List String → List String × Nat
  | 0, i, acc => (acc, i)
  | fuel + 1, i, acc =>
    if i < hira.length then
      let s := step use_m hira i acc
      scan_loop use_m hira fuel s.2 s.1
    else (acc, i)

/-- The basic (pre-macron) romanization assembled by the scanning loop. -/
def basic_romaji (text : String) (use_m_before_bmp : Bool) : String :=
  String.join ((scan_loop use_m_before_bmp (normalize_to_hira text).toList
    (normalize_to_hira text).toList.length 0 []).1.reverse)

/-- Embeds `kana_to_romaji(text, use_macrons, use_m_before_bmp)`. -/
def kana_to_romaji (text : String) (use_macrons : Bool) (use_m_before_bmp : Bool) :
    String :=
  if text.toList.isEmpty then ""
  else
    let basic := basic_romaji text use_m_before_bmp
    if use_macrons then apply_macrons basic else basic

/-- Ordered lookup succeeds only on pairs of the table. -/
theorem alookup_mem {k v : String} {t : List (String × String)}
    (h : alookup k t = some v) : (k, v) ∈ t := by
  induction t with
  | nil => simp [alookup] at h
  | cons p rest ih =>
    obtain ⟨p1, p2⟩ := p
    rw [alookup] at h
    split at h
    · next heq =>
      injection h with h2
      subst heq; subst h2
      exact List.mem_cons_self _ _
    · exact List.mem_cons_of_mem _ (ih h)

/-- Ordered lookup succeeds only on pairs of the table (`Char` keys). -/
theorem clookup_mem {k : Char} {v : String} {t : List (Char × String)}
    (h : clookup k t = some v) : (k, v) ∈ t := by
  induction t with
  | nil => simp [clookup] at h
  | cons p rest ih =>
    obtain ⟨p1, p2⟩ := p
    rw [clookup] at h
    split at h
    · next heq =>
      injection h with h2
      subst heq; subst h2
      exact List.mem_cons_self _ _
    · exact List.mem_cons_of_mem _ (ih h)

/-- A two-character key whose first character differs from the head of
every key of the table is not found. -/
theorem alookup_head_ne {c b : Char} {t : List (String × String)}
    (h : ∀ p ∈ t, p.1.toList.headD ' ' ≠ c) :
    alookup (String.mk [c, b]) t = none := by
  induction t with
  | nil => rfl
  | cons p rest ih =>
    rw [alookup, if_neg, ih]
    · intro q hq
      exact h q (List.mem_cons_of_mem _ hq)
    · intro heq
      have hlist : p.1.toList = [c, b] := by rw [← heq]; rfl
      have hp := h p (List.mem_cons_self _ _)
      rw [hlist] at hp
      exact hp rfl

/-- Facts about the digraph table settled by evaluation: no key starts
with っ, ん or ー; lookup of each key returns its value; every value
starts with a Latin letter. -/
theorem digraph_facts : ∀ p ∈ HIRA_DIGRAPHS,
    (p.1.toList.headD ' ' ≠ 'っ' ∧ p.1.toList.headD ' ' ≠ 'ん' ∧
     p.1.toList.headD ' ' ≠ 'ー') ∧
    alookup p.1 HIRA_DIGRAPHS = some p.2 ∧
    (p.2.toList.headD ' ').isAlpha := by decide

/-- Every non-empty monograph value starts with a Latin letter. -/
theorem mono_head_alpha : ∀ p ∈ HIRA_MONO,
    p.2.toList = [] ∨ (p.2.toList.headD ' ').isAlpha := by decide

/-- The first character of any non-empty lookahead chunk is a Latin
letter (chunks only come from the two tables). -/
theorem chunk_head_alpha (hira : List Char) (pos : Nat) {c : Char} {cs : List Char}
    (h : (next_romaji_chunk hira pos).toList = c :: cs) : c.isAlpha := by
  rw [next_romaji_chunk] at h
  split at h
  · simp at h
  · split at h
    · rcases hd : alookup (String.mk [hira.getD pos ' ', hira.getD (pos + 1) ' '])
          HIRA_DIGRAPHS with _ | v
      · rw [hd, Option.getD_none] at h
        rcases hm : clookup (hira.getD pos ' ') HIRA_MONO with _ | rom
        · rw [hm] at h
          simp at h
        · rw [hm, Option.getD_some] at h
          have hmem := clookup_mem hm
          rcases mono_head_alpha _ hmem with hnil | halpha
          · rw [hnil] at h
            simp at h
          · rw [h] at halpha
            exact halpha
      · rw [hd, Option.getD_some] at h
        have hmem := alookup_mem hd
        have hfact := (digraph_facts _ hmem).2.2
        rw [h] at hfact
        exact hfact
    · rw [Option.getD_none] at h
      rcases hm : clookup (hira.getD pos ' ') HIRA_MONO with _ | rom
      · rw [hm] at h
        simp at h
      · rw [hm, Option.getD_some] at h
        have hmem := clookup_mem hm
        rcases mono_head_alpha _ hmem with hnil | halpha
        · rw [hnil] at h
          simp at h
        · rw [h] at halpha
          exact halpha

/-- Dispatch: at っ the loop takes the sokuon branch. -/
theorem step_sokuon (use_m : Bool) {hira : List Char} {i : Nat} (acc : List String)
    (hch : hira.getD i ' ' = 'っ') :
    step use_m hira i acc = sokuon_step hira i acc := by
  unfold step
  rw [hch, if_pos rfl]

/-- Dispatch: at ん the loop takes the moraic-nasal branch. -/
theorem step_nasal (use_m : Bool) {hira : List Char} {i : Nat} (acc : List String)
    (hch : hira.getD i ' ' = 'ん') :
    step use_m hira i acc = nasal_step use_m hira i acc := by
  unfold step
  rw [hch, if_neg (by decide), if_pos rfl]

/-- Dispatch: at ー the loop takes the chōon branch (no digraph key
starts with ー). -/
theorem step_choon (use_m : Bool) {hira : List Char} {i : Nat} (acc : List String)
    (hch : hira.getD i ' ' = 'ー') :
    step use_m hira i acc = choon_step acc i := by
  unfold step
  rw [hch, if_neg (by decide), if_neg (by decide)]
  have hnone : (if i + 1 < hira.length then
      alookup (String.mk ['ー', hira.getD (i + 1) ' ']) HIRA_DIGRAPHS
    else none) = none := by
    split
    · exact alookup_head_ne (fun p hp => (digraph_facts p hp).1.2.2)
    · rfl
  rw [hnone]
  rfl

/-- Dispatch: on a digraph match the digraph value is appended and the
cursor advances by 2. -/
theorem step_digraph (use_m : Bool) {hira : List Char} {i : Nat} (acc : List String)
    {a b : Char} {v : String}
    (ha1 : a ≠ 'っ') (ha2 : a ≠ 'ん') (hlen : i + 1 < hira.length)
    (h1 : hira.getD i ' ' = a) (h2 : hira.getD (i + 1) ' ' = b)
    (hd : alookup (String.mk [a, b]) HIRA_DIGRAPHS = some v) :
    step use_m hira i acc = (v :: acc, i + 2) := by
  unfold step
  rw [h1, h2, if_neg ha1, if_neg ha2, if_pos hlen, hd]

/-- Dispatch: with no special character and no digraph match the loop
takes the monograph/pass-through branch. -/
theorem step_mono (use_m : Bool) {hira : List Char} {i : Nat} (acc : List String)
    (h1 : hira.getD i ' ' ≠ 'っ') (h2 : hira.getD i ' ' ≠ 'ん')
    (h3 : hira.getD i ' ' ≠ 'ー')
    (hd : (if i + 1 < hira.length then
             alookup (String.mk [hira.getD i ' ', hira.getD (i + 1) ' ']) HIRA_DIGRAPHS
           else none) = none) :
    step use_m hira i acc = mono_step hira i acc := by
  unfold step
  rw [if_neg h1, if_neg h2, hd, if_neg h3]

/-- The moraic-nasal romanization as the claim states it, as a function
of the resolved lookahead chunk (empty chunk covers both the
end-of-string case and an unresolvable next position). -/
def nasal_spec (use_m : Bool) (chunk : String) : String :=
  match chunk.toList with
  | [] => "n"
  | c :: _ =>
    if "aeiouy".toList.contains c.toLower then "n'"
    else if "bmp".toList.contains c.toLower then if use_m then "m" else "n"
    else "n"

/-- The gemination behaviour as the claim states it: append exactly the
first character of a non-empty lookahead chunk, nothing otherwise. -/
def sokuon_spec (chunk : String) (acc : List String) : List String :=
  match chunk.toList with
  | [] => acc
  | c :: _ => String.mk [c] :: acc

/-- The long-vowel-marker behaviour as the claim states it: re-append
the last vowel of the last appended chunk when the buffer is
non-empty. -/
def choon_spec (acc : List String) : List String :=
  match acc with
  | [] => acc
  | last :: _ =>
    match last.toList.reverse.find? (fun c => "aeiou".toList.contains c) with
    | some v => String.mk [v] :: acc
    | none => acc

/-- Claim C1: at each ん the appended chunk is "n" when ん is last or the
lookahead chunk is empty, "n'" before a vowel or y, "m"/"n" (by flag)
before b/m/p, and "n" otherwise; the cursor advances by 1.  In
particular しんよう → shin'you and しんぶん → shimbun / shinbun by flag
(macrons off). -/
theorem claim_c1 :
    (∀ (use_m : Bool) (hira : List Char) (i : Nat) (acc : List String),
      i < hira.length → hira.getD i ' ' = 'ん' →
      step use_m hira i acc =
        (nasal_spec use_m (next_romaji_chunk hira (i + 1)) :: acc, i + 1)) ∧
    (∀ use_m : Bool, kana_to_romaji "しんよう" false use_m = "shin'you") ∧
    kana_to_romaji "しんぶん" false true = "shimbun" ∧
    kana_to_romaji "しんぶん" false false = "shinbun" := by
  refine ⟨?_, by decide, by decide, by decide⟩
  intro m hira i acc hi hch
  rw [step_nasal m acc hch]
  unfold nasal_step nasal_spec
  by_cases hl : i + 1 ≥ hira.length
  · rw [if_pos hl]
    have he : next_romaji_chunk hira (i + 1) = "" := by
      rw [next_romaji_chunk, if_pos hl]
    rw [he]
    rfl
  · rw [if_neg hl]
    rcases hc : (next_romaji_chunk hira (i + 1)).toList with _ | ⟨c, cs⟩
    · rfl
    · show (if "aeiouy".toList.contains c.toLower then "n'" :: acc
          else if "bmp".toList.contains c.toLower then
            (if m then "m" else "n") :: acc
          else "n" :: acc, i + 1) =
        ((if "aeiouy".toList.contains c.toLower then "n'"
          else if "bmp".toList.contains c.toLower then
            (if m then "m" else "n")
          else "n") :: acc, i + 1)
      split
      · rfl
      · split <;> rfl

/-- Claim C1 witness: the theorem applied at ん followed by ぶ with the
flag set appends "m". -/
theorem claim_c1_witness : step true ['ん', 'ぶ'] 0 [] = (["m"], 1) := by
  have h := claim_c1.1 true ['ん', 'ぶ'] 0 [] (by decide) (by decide)
  rw [h]
  decide

/-- Claim C4: at each っ the first character of a non-empty lookahead
chunk is appended (nothing for an empty lookahead) and the cursor
advances by 1; がっこう → gakkou (macrons off) / gakkō (macrons on). -/
theorem claim_c4 :
    (∀ (use_m : Bool) (hira : List Char) (i : Nat) (acc : List String),
      i < hira.length → hira.getD i ' ' = 'っ' →
      step use_m hira i acc =
        (sokuon_spec (next_romaji_chunk hira (i + 1)) acc, i + 1)) ∧
    (∀ use_m : Bool, kana_to_romaji "がっこう" false use_m = "gakkou" ∧
      kana_to_romaji "がっこう" true use_m = "gakkō") := by
  refine ⟨?_, by decide⟩
  intro m hira i acc hi hch
  rw [step_sokuon m acc hch]
  unfold sokuon_step sokuon_spec
  by_cases hl : i + 1 < hira.length
  · rw [if_pos hl]
    rcases hc : (next_romaji_chunk hira (i + 1)).toList with _ | ⟨c, cs⟩
    · rfl
    · show (if c.isAlpha then String.mk [c] :: acc else acc, i + 1) =
        (String.mk [c] :: acc, i + 1)
      rw [if_pos (chunk_head_alpha hira (i + 1) hc)]
  · rw [if_neg hl]
    have he : next_romaji_chunk hira (i + 1) = "" := by
      rw [next_romaji_chunk, if_pos (by omega)]
    rw [he]
    rfl

/-- Claim C4 witness: the theorem applied at っ followed by こ appends
the single letter "k". -/
theorem claim_c4_witness : step true ['っ', 'こ'] 0 [] = (["k"], 1) := by
  have h := claim_c4.1 true ['っ', 'こ'] 0 [] (by decide) (by decide)
  rw [h]
  decide

/-- Claim C5: at each ー, with a non-empty output buffer the last vowel
of the last appended chunk (scanning backward) is re-appended as a
single letter, with an empty buffer nothing is appended, and the
cursor advances by 1. -/
theorem claim_c5 :
    ∀ (use_m : Bool) (hira : List Char) (i : Nat) (acc : List String),
      i < hira.length → hira.getD i ' ' = 'ー' →
      step use_m hira i acc = (choon_spec acc, i + 1) := by
  intro m hira i acc hi hch
  rw [step_choon m acc hch]
  rfl

/-- Claim C5 witness: the theorem applied at ー after the chunk "ka"
re-appends "a". -/
theorem claim_c5_witness : step true ['ー'] 0 ["ka"] = (["a", "ka"], 1) := by
  have h := claim_c5 true ['ー'] 0 ["ka"] (by decide) (by decide)
  rw [h]
  decide

/-- Claim C2: with macrons off the result is the assembled basic
romanization untouched by the macron pass; with macrons on it is the
basic romanization with the six literal replacements applied
sequentially in exactly the listed order, each consuming the output of
the previous one.  とうきょう → toukyou / tōkyō. -/
theorem claim_c2 :
    (∀ (s : String) (use_m : Bool),
      kana_to_romaji s false use_m = basic_romaji s use_m) ∧
    (∀ (s : String) (use_m : Bool),
      kana_to_romaji s true use_m = apply_macrons (basic_romaji s use_m)) ∧
    (∀ b : String, apply_macrons b =
      str_replace (str_replace (str_replace (str_replace (str_replace
        (str_replace b "aa" "ā") "ii" "ī") "uu" "ū") "ee" "ē") "oo" "ō") "ou" "ō") ∧
    (∀ use_m : Bool, kana_to_romaji "とうきょう" false use_m = "toukyou" ∧
      kana_to_romaji "とうきょう" true use_m = "tōkyō") := by
  refine ⟨?_, ?_, fun b => rfl, by decide⟩
  · intro s m
    unfold kana_to_romaji
    split
    · next h =>
      have h2 : s.toList = [] := by simpa using h
      unfold basic_romaji normalize_to_hira
      rw [h2]
      rfl
    · rfl
  · intro s m
    unfold kana_to_romaji
    split
    · next h =>
      have h2 : s.toList = [] := by simpa using h
      unfold basic_romaji normalize_to_hira
      rw [h2]
      rfl
    · rfl

/-- Claim C8: the engine is total — every input and flag combination
yields a result (the model is a total function), the empty string
yields the empty string, and degenerate inputs such as a lone small-y
kana or an unmapped kanji are handled without failure. -/
theorem claim_c8 :
    (∀ (s : String) (use_macrons use_m : Bool), ∃ r : String,
      kana_to_romaji s use_macrons use_m = r) ∧
    (∀ use_macrons use_m : Bool,
      kana_to_romaji "" use_macrons use_m = "" ∧
      kana_to_romaji "ゃ" use_macrons use_m = "ya" ∧
      kana_to_romaji "漢" use_macrons use_m = "漢") :=
  ⟨fun _ _ _ => ⟨_, rfl⟩, by decide⟩

/-- Claim C6: for every pair of the digraph table, when the cursor
points at its first character the digraph's romanization is appended
and the cursor advances by 2; transliterating the pair alone returns
exactly the digraph's value (under every flag combination). -/
theorem claim_c6 :
    (∀ (k v : String), (k, v) ∈ HIRA_DIGRAPHS →
      ∀ (use_m : Bool) (hira : List Char) (i : Nat) (acc : List String) (a b : Char),
        k.toList = [a, b] → i + 1 < hira.length →
        hira.getD i ' ' = a → hira.getD (i + 1) ' ' = b →
        step use_m hira i acc = (v :: acc, i + 2)) ∧
    (∀ p ∈ HIRA_DIGRAPHS, ∀ use_macrons use_m : Bool,
      kana_to_romaji p.1 use_macrons use_m = p.2) := by
  refine ⟨?_, by decide⟩
  intro k v hmem m hira i acc a b hk hlen h1 h2
  obtain ⟨data⟩ := k
  have hd : data = [a, b] := hk
  subst hd
  have hfacts := digraph_facts _ hmem
  exact step_digraph m acc hfacts.1.1 hfacts.1.2.1 hlen h1 h2 hfacts.2.1

/-- Claim C6 witness: the theorem applied at きゃ appends "kya" and
advances the cursor to 2. -/
theorem claim_c6_witness : step true ['き', 'ゃ'] 0 [] = (["kya"], 2) := by
  have h := claim_c6.1 "きゃ" "kya" (by decide) true ['き', 'ゃ'] 0 [] 'き' 'ゃ'
    rfl (by decide) rfl rfl
  rw [h]

/-- Evaluating `Char.ofNat` below the surrogate range. -/
theorem toNat_char_ofNat {n : Nat} (h : n < 55296) : (Char.ofNat n).toNat = n := by
  rw [Char.ofNat, dif_pos (Or.inl h)]
  rfl

/-- In the katakana range the normalization subtracts the fixed offset
0x60. -/
theorem kata_to_hira_of_range {c : Char}
    (h : 0x30A1 ≤ c.toNat ∧ c.toNat ≤ 0x30F6) :
    (kata_to_hira c).toNat = c.toNat - 0x60 := by
  simp only [kata_to_hira]
  rw [if_pos h]
  exact toNat_char_ofNat (by omega)

/-- Outside the katakana range the normalization is the identity. -/
theorem kata_to_hira_of_not_range {c : Char}
    (h : ¬(0x30A1 ≤ c.toNat ∧ c.toNat ≤ 0x30F6)) :
    kata_to_hira c = c := by
  simp only [kata_to_hira]
  rw [if_neg h]

/-- Normalization of a single character is idempotent. -/
theorem kata_to_hira_idem (c : Char) :
    kata_to_hira (kata_to_hira c) = kata_to_hira c := by
  by_cases h : 0x30A1 ≤ c.toNat ∧ c.toNat ≤ 0x30F6
  · apply kata_to_hira_of_not_range
    rw [kata_to_hira_of_range h]
    omega
  · rw [kata_to_hira_of_not_range h]
    exact kata_to_hira_of_not_range h

/-- Claim C7: normalization preserves length, shifts every character of
the katakana code-point range down by the fixed offset 0x60 to its
hiragana equivalent, leaves every other character unchanged, and is
idempotent. -/
theorem claim_c7 :
    (∀ s : String, (normalize_to_hira s).length = s.length) ∧
    (∀ c : Char, 0x30A1 ≤ c.toNat ∧ c.toNat ≤ 0x30F6 →
      (kata_to_hira c).toNat = c.toNat - 0x60) ∧
    (∀ c : Char, ¬(0x30A1 ≤ c.toNat ∧ c.toNat ≤ 0x30F6) → kata_to_hira c = c) ∧
    (∀ s : String, normalize_to_hira (normalize_to_hira s) = normalize_to_hira s) := by
  refine ⟨?_, fun c h => kata_to_hira_of_range h,
    fun c h => kata_to_hira_of_not_range h, ?_⟩
  · intro s
    show (s.toList.map kata_to_hira).length = s.toList.length
    exact List.length_map _ _
  · intro s
    show String.mk ((s.toList.map kata_to_hira).map kata_to_hira) =
      String.mk (s.toList.map kata_to_hira)
    rw [List.map_map]
    congr 1
    apply List.map_congr_left
    intro a _
    exact kata_to_hira_idem a

/-- Claim C7 witness: the theorem applied to アか and to the chars ア
(in range) and x (out of range). -/
theorem claim_c7_witness :
    (normalize_to_hira "アか").length = ("アか" : String).length ∧
    (kata_to_hira 'ア').toNat = 'ア'.toNat - 0x60 ∧
    kata_to_hira 'x' = 'x' ∧
    normalize_to_hira (normalize_to_hira "アか") = normalize_to_hira "アか" :=
  ⟨claim_c7.1 "アか", claim_c7.2.1 'ア' (by decide),
    claim_c7.2.2.1 'x' (by decide), claim_c7.2.2.2 "アか"⟩

/-- A digraph match at position `i`: the current character is not one of
the two earlier special cases, a next character exists, and the
two-character key is in the digraph table. -/
def digraph_at (hira : List Char) (i : Nat) : Prop :=
  hira.getD i ' ' ≠ 'っ' ∧ hira.getD i ' ' ≠ 'ん' ∧ i + 1 < hira.length ∧
    (alookup (String.mk [hira.getD i ' ', hira.getD (i + 1) ' ']) HIRA_DIGRAPHS).isSome

instance (hira : List Char) (i : Nat) : Decidable (digraph_at hira i) := by
  unfold digraph_at
  infer_instance

/-- Every step advances the cursor by 1, or by 2 exactly on a digraph
match, in which case the new cursor still does not pass the end. -/
theorem step_advance (use_m : Bool) (hira : List Char) (i : Nat) (acc : List String) :
    ((step use_m hira i acc).2 = i + 1 ∧ ¬ digraph_at hira i) ∨
    ((step use_m hira i acc).2 = i + 2 ∧ i + 2 ≤ hira.length ∧ digraph_at hira i) := by
  unfold step
  by_cases h1 : hira.getD i ' ' = 'っ'
  · rw [if_pos h1]
    exact Or.inl ⟨rfl, fun hdg => hdg.1 h1⟩
  · rw [if_neg h1]
    by_cases h2 : hira.getD i ' ' = 'ん'
    · rw [if_pos h2]
      exact Or.inl ⟨rfl, fun hdg => hdg.2.1 h2⟩
    · rw [if_neg h2]
      by_cases hlen : i + 1 < hira.length
      · rw [if_pos hlen]
        rcases hd : alookup (String.mk [hira.getD i ' ', hira.getD (i + 1) ' '])
            HIRA_DIGRAPHS with _ | v
        · refine Or.inl ⟨?_, fun hdg => ?_⟩
          · by_cases h3 : hira.getD i ' ' = 'ー'
            · rw [if_pos h3]
              rfl
            · rw [if_neg h3]
              rfl
          · have hs := hdg.2.2.2
            rw [hd] at hs
            simp at hs
        · exact Or.inr ⟨rfl, by omega, h1, h2, hlen, by rw [hd]; rfl⟩
      · rw [if_neg hlen]
        refine Or.inl ⟨?_, fun hdg => hlen hdg.2.2.1⟩
        by_cases h3 : hira.getD i ' ' = 'ー'
        · rw [if_pos h3]
          rfl
        · rw [if_neg h3]
          rfl

/-- With fuel at least the remaining distance, the scanning loop stops
with the cursor exactly at the end of the string. -/
theorem scan_loop_final (use_m : Bool) (hira : List Char) :
    ∀ (fuel i : Nat) (acc : List String),
      hira.length - i ≤ fuel → i ≤ hira.length →
      (scan_loop use_m hira fuel i acc).2 = hira.length := by
  intro fuel
  induction fuel with
  | zero =>
    intro i acc hf hi
    show i = hira.length
    omega
  | succ f ih =>
    intro i acc hf hi
    rw [scan_loop]
    split
    · next hlt =>
      rcases step_advance use_m hira i acc with ⟨h1, _⟩ | ⟨h2, hle, _⟩
      · exact ih _ _ (by omega) (by omega)
      · exact ih _ _ (by omega) (by omega)
    · next hge =>
      show i = hira.length
      omega

/-- Claim C9: every iteration advances the cursor by exactly 1, or by
exactly 2 precisely on a digraph match (never past the end), so the
loop terminates with the cursor exactly at the length of the
normalized string. -/
theorem claim_c9 :
    (∀ (use_m : Bool) (hira : List Char) (i : Nat) (acc : List String),
      i < hira.length →
      ((step use_m hira i acc).2 = i + 1 ∧ ¬ digraph_at hira i) ∨
      ((step use_m hira i acc).2 = i + 2 ∧ i + 2 ≤ hira.length ∧ digraph_at hira i)) ∧
    (∀ (use_m : Bool) (hira : List Char) (acc : List String),
      (scan_loop use_m hira hira.length 0 acc).2 = hira.length) :=
  ⟨fun use_m hira i acc _ => step_advance use_m hira i acc,
    fun use_m hira acc =>
      scan_loop_final use_m hira hira.length 0 acc (by omega) (by omega)⟩

/-- Claim C9 witness: the theorem applied to きゃ at position 0 — the
digraph advances the cursor by 2, and the loop ends at the length. -/
theorem claim_c9_witness :
    (step true ['き', 'ゃ'] 0 []).2 = 2 ∧
    (scan_loop true ['き', 'ゃ'] 2 0 []).2 = 2 := by
  constructor
  · rcases claim_c9.1 true ['き', 'ゃ'] 0 [] (by decide) with ⟨h, _⟩ | ⟨h, _⟩
    · exact absurd h (by decide)
    · exact h
  · exact claim_c9.2 true ['き', 'ゃ'] []

/-- Only ん and ン normalize to ん. -/
theorem kata_to_hira_eq_n {c : Char} (h : kata_to_hira c = 'ん') :
    c = 'ん' ∨ c = 'ン' := by
  by_cases hr : 0x30A1 ≤ c.toNat ∧ c.toNat ≤ 0x30F6
  · right
    have he := kata_to_hira_of_range hr
    rw [h] at he
    have hn : c.toNat = 0x30F3 := by
      have hv : ('ん').toNat = 0x3093 := rfl
      omega
    have hc : c = Char.ofNat c.toNat := (Char.ofNat_toNat c).symm
    rw [hn] at hc
    rw [hc]
  · left
    rw [kata_to_hira_of_not_range hr] at h
    exact h

/-- The flag only matters in the moraic-nasal branch. -/
theorem step_flag (m1 m2 : Bool) (hira : List Char) (i : Nat) (acc : List String)
    (h : hira.getD i ' ' ≠ 'ん') :
    step m1 hira i acc = step m2 hira i acc := by
  unfold step
  by_cases h1 : hira.getD i ' ' = 'っ'
  · rw [if_pos h1, if_pos h1]
  · rw [if_neg h1, if_neg h, if_neg h1, if_neg h]

/-- On a string without ん the scanning loop ignores the flag. -/
theorem scan_loop_flag (m1 m2 : Bool) (hira : List Char) (hno : 'ん' ∉ hira) :
    ∀ (fuel i : Nat) (acc : List String),
      scan_loop m1 hira fuel i acc = scan_loop m2 hira fuel i acc := by
  intro fuel
  induction fuel with
  | zero => intro i acc; rfl
  | succ f ih =>
    intro i acc
    rw [scan_loop, scan_loop]
    split
    · next hlt =>
      have hch : hira.getD i ' ' ≠ 'ん' := by
        intro hc
        apply hno
        rw [← hc]
        have hg : hira.getD i ' ' = hira[i] := by
          rw [List.getD_eq_getElem?_getD, List.getElem?_eq_getElem hlt]
          rfl
        rw [hg]
        exact List.getElem_mem hlt
      rw [step_flag m1 m2 hira i acc hch]
      exact ih _ _
    · rfl

/-- Claim C10: on inputs containing neither ん nor ン (the only character
that normalizes to ん), the `use_m_before_bmp` flag has no influence on
the output, for either macron setting. -/
theorem claim_c10 :
    ∀ (s : String) (use_macrons : Bool), 'ん' ∉ s.toList → 'ン' ∉ s.toList →
      kana_to_romaji s use_macrons true = kana_to_romaji s use_macrons false := by
  intro s u h1 h2
  have hno : 'ん' ∉ (normalize_to_hira s).toList := by
    intro hmem
    obtain ⟨a, ha, hak⟩ := List.mem_map.mp hmem
    rcases kata_to_hira_eq_n hak with rfl | rfl
    · exact h1 ha
    · exact h2 ha
  have hb : basic_romaji s true = basic_romaji s false := by
    unfold basic_romaji
    rw [scan_loop_flag true false ((normalize_to_hira s).toList) hno]
  unfold kana_to_romaji
  rw [hb]

/-- Claim C10 witness: the theorem applied to "かa" (no ん, no ン). -/
theorem claim_c10_witness :
    kana_to_romaji "かa" false true = kana_to_romaji "かa" false false :=
  claim_c10 "かa" false (by decide) (by decide)

/-- Claim C3 counterexample: with macrons on, the Latin letter 'a' in
input "aa" satisfies every exclusion condition of the claim (not in
the katakana range, not a monograph key, not starting a digraph pair
at either position, not っ/ん/ー), yet the output "ā" does not contain
the character 'a' at all — the macron pass merged the two pass-through
characters, so the claim fails for the flag combination with
`use_macrons = true`. -/
theorem claim_c3_counterexample :
    (¬(0x30A1 ≤ 'a'.toNat ∧ 'a'.toNat ≤ 0x30F6)) ∧
    clookup 'a' HIRA_MONO = none ∧
    alookup (String.mk ['a', 'a']) HIRA_DIGRAPHS = none ∧
    'a' ∉ (['っ', 'ん', 'ー'] : List Char) ∧
    kana_to_romaji "aa" true true = "ā" ∧
    'a' ∉ (kana_to_romaji "aa" true true).toList := by decide

/-- Claim C3 as amended: the pass-through holds in the basic (pre-macron)
romanization — the loop emits the character itself, in place, as its
own chunk — and hence in the output whenever `use_macrons` is false;
with macrons on it holds only up to the macron replacements. -/
theorem claim_c3_amended :
    (∀ (use_m : Bool) (hira : List Char) (i : Nat) (acc : List String),
      i < hira.length →
      clookup (hira.getD i ' ') HIRA_MONO = none →
      (i + 1 < hira.length →
        alookup (String.mk [hira.getD i ' ', hira.getD (i + 1) ' ']) HIRA_DIGRAPHS = none) →
      hira.getD i ' ' ∉ (['っ', 'ん', 'ー'] : List Char) →
      step use_m hira i acc = (String.mk [hira.getD i ' '] :: acc, i + 1)) ∧
    (∀ use_m : Bool, kana_to_romaji "か漢a" false use_m = "ka漢a") := by
  refine ⟨?_, by decide⟩
  intro m hira i acc hi hmono hdig hmem
  simp only [List.mem_cons, List.not_mem_nil, or_false, not_or] at hmem
  obtain ⟨h1, h2, h3⟩ := hmem
  have hd : (if i + 1 < hira.length then
      alookup (String.mk [hira.getD i ' ', hira.getD (i + 1) ' ']) HIRA_DIGRAPHS
    else none) = none := by
    split
    · next hlen => exact hdig hlen
    · rfl
  rw [step_mono m acc h1 h2 h3 hd]
  unfold mono_step
  rw [hmono]

/-- Claim C3 (amended) witness: the theorem applied to the unmapped
Latin letter 'a' at position 1 of ['あ', 'a']. -/
theorem claim_c3_witness : step true ['あ', 'a'] 1 ["a"] = (["a", "a"], 2) := by
  have h := claim_c3_amended.1 true ['あ', 'a'] 1 ["a"] (by decide) (by decide)
    (fun hl => absurd hl (by decide)) (by decide)
  rw [h]
  decide

example : kana_to_romaji "しんよう" false true = "shin'you" := by decide
example : kana_to_romaji "とうきょう" true true = "tōkyō" := by decide
example : kana_to_romaji "アか" false true = "aka" := by decide
example : kana_to_romaji "かーa" false true = "kaaa" := by decide
